import Mathlib

/-!
Shallow embedding of the feed aggregation core of
pyAggregatedRssFeedReader (src/main.py), and theorems settling the
frozen claims about it.

The embedding follows the source:
- a feedparser entry becomes the structure Entry; its published_parsed
  attribute is an Option Int (none models the attribute being absent or
  the library leaving it unparsed);
- FeedFetcher.run's loop over completed futures becomes collectEntries
  over a list of (source name, fetch outcome) pairs, exceptions from a
  future becoming Except.error; the final list.sort with
  key published_parsed and reverse set is modelled by the stable
  descending insertion sort sortDesc, and the AttributeError the key
  function raises on an entry without a parsed timestamp becomes the
  Except.error branch of FeedFetcher.run;
- extract_title's regular-expression search is modelled character by
  character with the exact semantics of the pattern used in the source
  (laziness of the captured group, the dot not crossing a newline, the
  attribute part stopping at the first closing angle bracket);
- RSSReader's mutable fields become ReaderState, and refresh_feeds,
  on_entry_click and mark_all_as_read become functions on it; the number
  of started fetch passes and of persistence writes are recorded in the
  state so claims about them can be stated;
- save_viewed_entries becomes the list of file-system operations the
  source performs, so that the atomic-write claim can be compared with
  it; load_viewed_entries consumes the parsed JSON payload (a list of
  optional strings: Python's None may sit in the viewed set and is
  serialised as null).
-/

/-- One normalized feed entry, as fields of the feedparser entry the
source reads: title, link, summary and the parsed publication time.
published_parsed is none when the upstream item carries no parseable
timestamp. -/
structure Entry where
  title : String
  link : String
  summary : String
  published_parsed : Option Int
deriving DecidableEq

/-- The configured sources with each fetch's outcome: feedparser.parse
either yields the entry list or the future raises. -/
abbrev Feeds := List (String × Except String (List Entry))

/-- The sort key the source uses: x.1 is the feed name, x.2 the entry,
and the key is the entry's published_parsed attribute. getD is only
reached on entries whose timestamp is present (FeedFetcher.run guards
on that, modelling the AttributeError otherwise). -/
def pubKey (p : String × Entry) : Int :=
  p.2.published_parsed.getD 0

/-- The collection loop of FeedFetcher.run: for each completed fetch,
append (feed_name, entry) for every entry on success, and on an
exception print and continue, contributing nothing for that source. -/
def collectEntries : Feeds → List (String × Entry)
  | [] => []
  | (name, Except.ok feed) :: rest =>
      feed.map (fun e => (name, e)) ++ collectEntries rest
  | (_, Except.error _) :: rest => collectEntries rest

/-- Stable descending insertion: x goes before the first element whose
key is not greater than its own, so elements with strictly greater keys
stay in front and elements with equal keys that were collected earlier
stay in front of x. -/
def insertDesc (x : String × Entry) : List (String × Entry) → List (String × Entry)
  | [] => [x]
  | y :: ys => if pubKey x < pubKey y then y :: insertDesc x ys else x :: y :: ys

/-- Stable sort by published timestamp, descending: the semantics of the
source's list.sort with the published_parsed key and reverse set (Python's
sort is stable, and stability with reverse keeps equal keys in input
order). -/
def sortDesc : List (String × Entry) → List (String × Entry)
  | [] => []
  | x :: xs => insertDesc x (sortDesc xs)

namespace FeedFetcher

/-- FeedFetcher.run: collect the entries of the succeeding sources, then
sort them by published_parsed descending. Computing the sort key raises
AttributeError when an entry has no published_parsed attribute; that
failure escapes run, modelled by the error branch. -/
def run (feeds : Feeds) : Except String (List (String × Entry)) :=
  if (collectEntries feeds).all (fun p => p.2.published_parsed.isSome) then
    Except.ok (sortDesc (collectEntries feeds))
  else
    Except.error "AttributeError: published_parsed"

/-- The worker cap of the executor the source constructs with no
arguments: the library default is the minimum of 32 and the machine's
cpu count plus 4. -/
def poolCap (cpuCount : Nat) : Nat :=
  min 32 (cpuCount + 4)

end FeedFetcher

/-- Whether the character list starts with the given pattern. -/
def beginsWith : List Char → List Char → Bool
  | [], _ => true
  | _ :: _, [] => false
  | p :: ps, c :: cs => p == c && beginsWith ps cs

/-- Whether the pattern occurs as a contiguous run somewhere in the
character list. -/
def hasInfix (pat : List Char) : List Char → Bool
  | [] => pat.isEmpty
  | c :: cs => beginsWith pat (c :: cs) || hasInfix pat cs

/-- The two characters opening an anchor in the source's pattern. -/
def openTag : List Char := ['<', 'a']

/-- The four characters of the closing anchor tag in the source's
pattern. -/
def closeTag : List Char := ['<', '/', 'a', '>']

/-- After the opening two characters, the pattern consumes every
character up to and through the first closing angle bracket; none when
no such bracket follows. -/
def afterOpen : List Char → Option (List Char)
  | [] => none
  | c :: cs => if c = '>' then some cs else afterOpen cs

/-- The lazily captured group: the shortest run of non-newline
characters followed by the closing anchor tag. Returns the captured
characters and the rest after the closing tag; none when no closing tag
is reachable. -/
def captureInner : List Char → Option (List Char × List Char)
  | [] => none
  | c :: cs =>
    if beginsWith closeTag (c :: cs) then some ([], cs.drop 3)
    else if c = '\n' then none
    else
      match captureInner cs with
      | some p => some (c :: p.1, p.2)
      | none => none

/-- The search loop: try to match the anchor pattern at each position in
turn, returning the first position's captured group. -/
def searchAnchor : List Char → Option String
  | [] => none
  | c :: cs =>
    if beginsWith openTag (c :: cs) then
      match afterOpen (cs.drop 1) with
      | some afterGt =>
        match captureInner afterGt with
        | some p => some (String.mk p.1)
        | none => searchAnchor cs
      | none => searchAnchor cs
    else searchAnchor cs

/-- extract_title from the source: search the text for the anchor
pattern and return the captured inner text, or none when there is no
match. -/
def extract_title (s : String) : Option String :=
  searchAnchor s.data

/-- The rich-text label the source renders for one entry: bold feed
name, colon, and an anchor whose href is the entry's link and whose
inner text is the entry's title. -/
def entryLabel (name : String) (e : Entry) : String :=
  "<b>" ++ name ++ "</b>: <a href='" ++ e.link ++ "'>" ++ e.title ++ "</a>"

/-- A Python set of viewed titles, represented as a duplicate-free list
of its elements (it can hold Python's None, hence Option String);
insertion order of the representation is irrelevant, all statements
about it go through membership. -/
abbrev ViewedSet := List (Option String)

/-- Python's set add: a no-op when the element is present, otherwise the
element joins the set. -/
def setInsert (x : Option String) (l : ViewedSet) : ViewedSet :=
  if x ∈ l then l else x :: l

/-- The reader's mutable state relevant to the claims: the viewed set,
how many fetch passes have been started, how many persistence writes
have been performed, and the displayed unread counter. -/
structure ReaderState where
  viewed : ViewedSet
  fetchPasses : Nat
  writes : Nat
  unreadCounter : Int
deriving DecidableEq

/-- refresh_feeds: disables the buttons and unconditionally starts a new
FeedFetcher thread, i.e. one fresh fetch pass over all configured
sources; nothing in the source consults the time of the previous pass,
so the call time is an unused argument. -/
def refresh_feeds (_now : Int) (s : ReaderState) : ReaderState :=
  { s with fetchPasses := s.fetchPasses + 1 }

/-- on_entry_click: open the link, and when the title is not yet viewed,
add it, save the viewed set (one write) and decrement the unread
counter; when the title is already viewed, do nothing to the state. -/
def on_entry_click (title : String) (s : ReaderState) : ReaderState :=
  if some title ∈ s.viewed then s
  else
    { s with
      viewed := setInsert (some title) s.viewed,
      writes := s.writes + 1,
      unreadCounter := s.unreadCounter - 1 }

/-- mark_all_as_read: for every displayed frame, extract the title from
the rendered label's HTML and add the extraction result (an optional
string: None when no anchor matched) to the viewed set; then perform one
save for the whole batch and set the displayed unread counter to 0. -/
def mark_all_as_read (entries : List (String × Entry)) (s : ReaderState) : ReaderState :=
  { s with
    viewed :=
      (entries.map (fun p => extract_title (entryLabel p.1 p.2))).foldl
        (fun acc t => setInsert t acc) s.viewed,
    writes := s.writes + 1,
    unreadCounter := 0 }

/-- The unread count the source computes over displayed entries: how
many have a title not in the viewed set. -/
def unreadCount (entries : List (String × Entry)) (viewed : ViewedSet) : Nat :=
  entries.countP (fun p => decide (some p.2.title ∉ viewed))

/-- File-system operations, to state what a persistence write does. -/
inductive FSOp where
  | openWrite : String → FSOp
  | writeData : List (Option String) → FSOp
  | closeFile : FSOp
  | renameFile : String → String → FSOp
deriving DecidableEq

/-- The path of the persisted viewed-entries file in the source. -/
def viewed_entries_file : String := "viewed_entries.json"

/-- save_viewed_entries: open the durable file itself in write mode
(truncating it), dump list(viewed_entries), close. No temporary file
and no rename are involved. -/
def save_viewed_entries (v : ViewedSet) : List FSOp :=
  [FSOp.openWrite viewed_entries_file,
   FSOp.writeData v,
   FSOp.closeFile]

/-- The payload of the first write in a trace. -/
def savedPayload (trace : List FSOp) : Option (List (Option String)) :=
  trace.findSome? (fun op =>
    match op with
    | FSOp.writeData d => some d
    | _ => none)

/-- load_viewed_entries: the set built from the parsed JSON payload
(set() of a list keeps one copy of each element). -/
def load_viewed_entries (stored : List (Option String)) : ViewedSet :=
  stored.dedup

/-- Modelled from the spec: the atomic write pattern the spec prescribes
for read-state persistence — the data is written to a temporary location
distinct from the durable file and only then renamed over it. -/
def specAtomicWritePattern (target : String) (trace : List FSOp) : Prop :=
  ∃ tmp data, tmp ≠ target ∧
    trace = [FSOp.openWrite tmp, FSOp.writeData data, FSOp.closeFile,
             FSOp.renameFile tmp target]

/-! ## Lemmas about the stable descending sort -/

theorem insertDesc_perm (x : String × Entry) (l : List (String × Entry)) :
    (insertDesc x l).Perm (x :: l) := by
  induction l with
  | nil => simp [insertDesc]
  | cons y ys ih =>
    by_cases h : pubKey x < pubKey y
    · simp only [insertDesc, if_pos h]
      exact (ih.cons y).trans (List.Perm.swap x y ys)
    · simp only [insertDesc, if_neg h]
      exact List.Perm.refl _

theorem insertDesc_pairwise (x : String × Entry) (l : List (String × Entry))
    (h : List.Pairwise (fun a b => pubKey b ≤ pubKey a) l) :
    List.Pairwise (fun a b => pubKey b ≤ pubKey a) (insertDesc x l) := by
  induction l with
  | nil => simp [insertDesc]
  | cons y ys ih =>
    rcases List.pairwise_cons.mp h with ⟨hy, hys⟩
    by_cases hc : pubKey x < pubKey y
    · simp only [insertDesc, if_pos hc]
      refine List.pairwise_cons.mpr ⟨?_, ih hys⟩
      intro b hb
      rcases List.mem_cons.mp ((insertDesc_perm x ys).mem_iff.mp hb) with hb | hb
      · subst hb; exact le_of_lt hc
      · exact hy b hb
    · simp only [insertDesc, if_neg hc]
      push_neg at hc
      refine List.pairwise_cons.mpr ⟨?_, h⟩
      intro b hb
      rcases List.mem_cons.mp hb with hb | hb
      · subst hb; exact hc
      · exact le_trans (hy b hb) hc

theorem insertDesc_filter (x : String × Entry) (l : List (String × Entry)) (k : Int) :
    (insertDesc x l).filter (fun p => pubKey p == k) =
      if pubKey x = k then x :: l.filter (fun p => pubKey p == k)
      else l.filter (fun p => pubKey p == k) := by
  induction l with
  | nil =>
    by_cases hx : pubKey x = k <;>
      simp [insertDesc, List.filter_cons, hx]
  | cons y ys ih =>
    by_cases hc : pubKey x < pubKey y
    · simp only [insertDesc, if_pos hc]
      by_cases hx : pubKey x = k
      · have hy : ¬ pubKey y = k := by
          intro hyk
          rw [hx] at hc
          rw [hyk] at hc
          exact lt_irrefl k hc
        simp [List.filter_cons, hx, hy, ih]
      · by_cases hy : pubKey y = k <;>
          simp [List.filter_cons, hx, hy, ih]
    · simp only [insertDesc, if_neg hc]
      by_cases hx : pubKey x = k <;>
        simp [List.filter_cons, hx]

theorem sortDesc_perm (l : List (String × Entry)) : (sortDesc l).Perm l := by
  induction l with
  | nil => simp [sortDesc]
  | cons x xs ih =>
    exact (insertDesc_perm x (sortDesc xs)).trans (ih.cons x)

theorem sortDesc_pairwise (l : List (String × Entry)) :
    List.Pairwise (fun a b => pubKey b ≤ pubKey a) (sortDesc l) := by
  induction l with
  | nil => simp [sortDesc]
  | cons x xs ih => exact insertDesc_pairwise x (sortDesc xs) ih

theorem sortDesc_filter (l : List (String × Entry)) (k : Int) :
    (sortDesc l).filter (fun p => pubKey p == k) =
      l.filter (fun p => pubKey p == k) := by
  induction l with
  | nil => rfl
  | cons x xs ih =>
    by_cases hx : pubKey x = k <;>
      simp [sortDesc, insertDesc_filter, List.filter_cons, hx, ih]

theorem collectEntries_mem (feeds : Feeds) (name : String) (e : Entry) :
    (name, e) ∈ collectEntries feeds ↔
      ∃ es, (name, Except.ok es) ∈ feeds ∧ e ∈ es := by
  induction feeds with
  | nil => simp [collectEntries]
  | cons nr rest ih =>
    obtain ⟨n, r⟩ := nr
    cases r with
    | ok es =>
      simp only [collectEntries, List.mem_append, List.mem_map, ih, List.mem_cons,
        Prod.mk.injEq, Except.ok.injEq]
      constructor
      · rintro (⟨a, ha, hn, ha2⟩ | ⟨es2, hmem, he⟩)
        · exact ⟨es, Or.inl ⟨hn.symm, rfl⟩, ha2 ▸ ha⟩
        · exact ⟨es2, Or.inr hmem, he⟩
      · rintro ⟨es2, ⟨hn, hes⟩ | hmem, he⟩
        · exact Or.inl ⟨e, hes ▸ he, hn.symm, rfl⟩
        · exact Or.inr ⟨es2, hmem, he⟩
    | error msg =>
      simp only [collectEntries, ih, List.mem_cons, Prod.mk.injEq]
      constructor
      · rintro ⟨es2, hmem, he⟩
        exact ⟨es2, Or.inr hmem, he⟩
      · rintro ⟨es2, ⟨hn, hfalse⟩ | hmem, he⟩
        · simp at hfalse
        · exact ⟨es2, hmem, he⟩

/-! ## C1: snapshot sorted by published descending, stable ties -/

/-- C1: every aggregation pass produces its entry list sorted by
published timestamp in non-increasing order, for any mixture of
timestamps including duplicates, and ties between equal timestamps keep
the stable order in which the entries were collected: for every
timestamp value, the produced list restricted to that value equals the
collected list restricted to it. -/
theorem C1_pass_sorted_stable (feeds : Feeds)
    (h : ∀ p ∈ collectEntries feeds, p.2.published_parsed.isSome = true) :
    ∃ l, FeedFetcher.run feeds = Except.ok l
      ∧ List.Pairwise (fun a b => pubKey b ≤ pubKey a) l
      ∧ (∀ k : Int, l.filter (fun p => pubKey p == k)
          = (collectEntries feeds).filter (fun p => pubKey p == k)) := by
  refine ⟨sortDesc (collectEntries feeds), ?_, sortDesc_pairwise _,
    fun k => sortDesc_filter _ k⟩
  unfold FeedFetcher.run
  rw [if_pos (List.all_eq_true.mpr h)]

/-- Concrete sources for the C1 witness: two feeds whose entries mix
duplicate and distinct timestamps. -/
def wFeedsC1 : Feeds :=
  [("A", Except.ok [⟨"a1", "la1", "", some 5⟩, ⟨"a2", "la2", "", some 9⟩]),
   ("B", Except.ok [⟨"b1", "lb1", "", some 9⟩, ⟨"b2", "lb2", "", some 5⟩])]

/-- C1 witness: the sorted-and-stable conclusion at the concrete
sources wFeedsC1, every hypothesis discharged by evaluation. -/
theorem C1_pass_sorted_stable_witness :
    ∃ l, FeedFetcher.run wFeedsC1 = Except.ok l
      ∧ List.Pairwise (fun a b => pubKey b ≤ pubKey a) l
      ∧ (∀ k : Int, l.filter (fun p => pubKey p == k)
          = (collectEntries wFeedsC1).filter (fun p => pubKey p == k)) :=
  C1_pass_sorted_stable wFeedsC1 (by decide)

/-! ## C2: per-source failure isolation -/

/-- C2: an aggregation pass over sources of which some fail completes
without raising (provided, as C4 settles separately, the succeeding
entries carry parsed timestamps) and its result holds exactly the
entries of the succeeding sources: it is a permutation of the collected
entries, and membership holds precisely for the entries of sources
whose fetch returned successfully. -/
theorem C2_failure_isolation (feeds : Feeds)
    (h : ∀ p ∈ collectEntries feeds, p.2.published_parsed.isSome = true) :
    ∃ l, FeedFetcher.run feeds = Except.ok l
      ∧ l.Perm (collectEntries feeds)
      ∧ (∀ (name : String) (e : Entry),
          (name, e) ∈ l ↔ ∃ es, (name, Except.ok es) ∈ feeds ∧ e ∈ es) := by
  refine ⟨sortDesc (collectEntries feeds), ?_, sortDesc_perm _, ?_⟩
  · unfold FeedFetcher.run
    rw [if_pos (List.all_eq_true.mpr h)]
  · intro name e
    rw [(sortDesc_perm (collectEntries feeds)).mem_iff]
    exact collectEntries_mem feeds name e

/-- Concrete sources for the C2 witness, the spec's own example: source
A returns two dated entries, source B fails. -/
def wFeedsC2 : Feeds :=
  [("A", Except.ok [⟨"fa1", "l1", "", some 20240102⟩, ⟨"fa2", "l2", "", some 20240101⟩]),
   ("B", Except.error "unreachable")]

/-- C2 witness: failure isolation at the concrete sources wFeedsC2 (one
failing source out of two), every hypothesis discharged by
evaluation. -/
theorem C2_failure_isolation_witness :
    ∃ l, FeedFetcher.run wFeedsC2 = Except.ok l
      ∧ l.Perm (collectEntries wFeedsC2)
      ∧ (∀ (name : String) (e : Entry),
          (name, e) ∈ l ↔ ∃ es, (name, Except.ok es) ∈ wFeedsC2 ∧ e ∈ es) :=
  C2_failure_isolation wFeedsC2 (by decide)

/-! ## C3: no result cache in refresh_feeds -/

/-- C3 counterexample: two consecutive aggregate-retrieval calls 5
seconds apart, well within the 10-second TTL the claim names: the
second call starts one additional fetch pass over the sources, not
zero. -/
theorem C3_counterexample :
    (refresh_feeds 5 (refresh_feeds 0 ⟨[], 0, 0, 0⟩)).fetchPasses
      = (refresh_feeds 0 ⟨[], 0, 0, 0⟩).fetchPasses + 1
    ∧ (5 : Int) - 0 < 10 := by
  exact ⟨rfl, by decide⟩

/-- C3 amended: the interactive reader has no result cache: every
aggregate-retrieval call, whatever the time elapsed since the previous
one, starts one fresh fetch pass over all configured sources. -/
theorem C3_amended (t : Int) (s : ReaderState) :
    (refresh_feeds t s).fetchPasses = s.fetchPasses + 1 := rfl

/-! ## C4: no fallback for a missing published timestamp -/

/-- A fetched entry whose upstream item carries no parseable
timestamp. -/
def missingTsEntry : Entry := ⟨"no date", "l", "", none⟩

/-- C4 counterexample: one succeeding source whose single entry has no
parsed timestamp: the pass raises (the sort key computation fails)
instead of substituting the current retrieval time. -/
theorem C4_counterexample :
    FeedFetcher.run [("A", Except.ok [missingTsEntry])]
      = Except.error "AttributeError: published_parsed" := rfl

/-- C4 amended: no fallback timestamp is substituted anywhere: the pass
returns a sorted list exactly when every collected entry carries a
parsed timestamp, and raises as soon as one does not, so the descending
sort is defined only on fully timestamped collections. -/
theorem C4_amended (feeds : Feeds) :
    (∃ l, FeedFetcher.run feeds = Except.ok l)
      ↔ ∀ p ∈ collectEntries feeds, p.2.published_parsed.isSome = true := by
  by_cases h : (collectEntries feeds).all (fun p => p.2.published_parsed.isSome) = true
  · unfold FeedFetcher.run
    rw [if_pos h]
    constructor
    · intro _
      exact List.all_eq_true.mp h
    · intro _
      exact ⟨_, rfl⟩
  · unfold FeedFetcher.run
    rw [if_neg h]
    constructor
    · rintro ⟨l, hl⟩
      cases hl
    · intro hall
      exact absurd (List.all_eq_true.mpr hall) h

/-! ## Viewed-set lemmas -/

theorem mem_setInsert (y x : Option String) (l : ViewedSet) :
    y ∈ setInsert x l ↔ y = x ∨ y ∈ l := by
  unfold setInsert
  by_cases h : x ∈ l
  · rw [if_pos h]
    constructor
    · exact Or.inr
    · rintro (rfl | hy)
      · exact h
      · exact hy
  · rw [if_neg h]
    exact List.mem_cons

theorem mem_foldl_setInsert (y : Option String) (acc : ViewedSet)
    (l : List (Option String)) :
    y ∈ l.foldl (fun a t => setInsert t a) acc ↔ y ∈ acc ∨ y ∈ l := by
  induction l generalizing acc with
  | nil => simp
  | cons x xs ih =>
    rw [List.foldl_cons, ih, mem_setInsert]
    simp only [List.mem_cons]
    tauto

/-- The reader's state at startup with nothing viewed yet. -/
def emptyState : ReaderState := ⟨[], 0, 0, 0⟩

/-! ## C5: mark-all-viewed -/

/-- Membership in the viewed set after mark-all: the old members plus
exactly the values extracted from the rendered labels. -/
theorem mem_mark_all_viewed (entries : List (String × Entry)) (s : ReaderState)
    (v : Option String) :
    v ∈ (mark_all_as_read entries s).viewed ↔
      v ∈ s.viewed ∨ v ∈ entries.map (fun q => extract_title (entryLabel q.1 q.2)) := by
  unfold mark_all_as_read
  exact mem_foldl_setInsert v s.viewed _

/-- An entry whose title contains a closing anchor tag, so its rendered
label does not round-trip through extract_title. -/
def trickyEntry : Entry := ⟨"x</a>y", "u", "", some 0⟩

/-- C5 counterexample: marking all entries of a snapshot holding one
entry whose title contains a closing anchor tag does not add that
entry's title to the viewed set (it adds the truncated extraction
instead), and the unread count of that exact snapshot afterwards is 1,
not 0. -/
theorem C5_counterexample :
    some trickyEntry.title ∉ (mark_all_as_read [("N", trickyEntry)] emptyState).viewed
    ∧ unreadCount [("N", trickyEntry)]
        (mark_all_as_read [("N", trickyEntry)] emptyState).viewed = 1 := by decide

/-- C5 amended: for a snapshot all of whose rendered labels round-trip
through extract_title (in particular whenever no title contains a
closing anchor tag and no link or name interferes with the pattern),
mark-all-viewed adds every entry's title to the viewed set, performs
exactly one persistence write for the whole batch, and the unread count
of that exact snapshot afterwards is 0; in general it is the extracted
label text, not necessarily the title, that is added. -/
theorem C5_amended (entries : List (String × Entry)) (s : ReaderState)
    (h : ∀ p ∈ entries, extract_title (entryLabel p.1 p.2) = some p.2.title) :
    (∀ p ∈ entries, some p.2.title ∈ (mark_all_as_read entries s).viewed)
    ∧ (mark_all_as_read entries s).writes = s.writes + 1
    ∧ unreadCount entries (mark_all_as_read entries s).viewed = 0 := by
  have hmem : ∀ p ∈ entries, some p.2.title ∈ (mark_all_as_read entries s).viewed := by
    intro p hp
    have hx : some p.2.title ∈ entries.map (fun q => extract_title (entryLabel q.1 q.2)) := by
      rw [List.mem_map]
      exact ⟨p, hp, h p hp⟩
    exact (mem_mark_all_viewed entries s _).mpr (Or.inr hx)
  refine ⟨hmem, rfl, ?_⟩
  rw [unreadCount, List.countP_eq_zero]
  intro p hp
  simp only [decide_eq_true_eq, not_not]
  exact hmem p hp

/-- The snapshot for the C5 witness: two entries with plain titles. -/
def wEntriesC5 : List (String × Entry) :=
  [("A", ⟨"hello", "u1", "", some 3⟩), ("B", ⟨"world", "u2", "", some 7⟩)]

/-- C5 witness: the amended mark-all-viewed property at a concrete
snapshot of two plainly titled entries, hypotheses discharged by
evaluation. -/
theorem C5_amended_witness :
    (∀ p ∈ wEntriesC5, some p.2.title ∈ (mark_all_as_read wEntriesC5 emptyState).viewed)
    ∧ (mark_all_as_read wEntriesC5 emptyState).writes = emptyState.writes + 1
    ∧ unreadCount wEntriesC5 (mark_all_as_read wEntriesC5 emptyState).viewed = 0 :=
  C5_amended wEntriesC5 emptyState (by decide)

/-! ## C6: mark-viewed idempotence and writes -/

/-- C6 counterexample: clicking the same title twice from a fresh state
performs one persistence write in total, not one per invocation: the
second invocation finds the title already viewed and writes nothing. -/
theorem C6_counterexample :
    (on_entry_click "t" (on_entry_click "t" emptyState)).writes = 1
    ∧ (on_entry_click "t" (on_entry_click "t" emptyState)).writes ≠ 2 := by decide

/-- C6 amended: mark-viewed is idempotent on the reader state; an
invocation on a not-yet-viewed title adds the title to the viewed set
and triggers one persistence write, while an invocation on an
already-viewed title leaves the state unchanged and writes nothing. -/
theorem C6_amended (t : String) (s : ReaderState) :
    on_entry_click t (on_entry_click t s) = on_entry_click t s
    ∧ (some t ∉ s.viewed →
        (on_entry_click t s).viewed = setInsert (some t) s.viewed
        ∧ (on_entry_click t s).writes = s.writes + 1)
    ∧ (some t ∈ s.viewed → on_entry_click t s = s) := by
  by_cases h : some t ∈ s.viewed
  · have e1 : on_entry_click t s = s := if_pos h
    refine ⟨?_, fun hc => absurd h hc, fun _ => e1⟩
    rw [e1, e1]
  · have e1 : on_entry_click t s =
        { s with
          viewed := setInsert (some t) s.viewed,
          writes := s.writes + 1,
          unreadCounter := s.unreadCounter - 1 } := if_neg h
    have h2 : some t ∈ (on_entry_click t s).viewed := by
      rw [e1]
      show some t ∈ setInsert (some t) s.viewed
      exact (mem_setInsert _ _ _).mpr (Or.inl rfl)
    refine ⟨if_pos h2, fun _ => ⟨by rw [e1], by rw [e1]⟩, fun hc => absurd hc h⟩

/-- C6 witness: the amended mark-viewed property at a concrete title
and the fresh state. -/
theorem C6_amended_witness :
    on_entry_click "u" (on_entry_click "u" emptyState) = on_entry_click "u" emptyState
    ∧ (some "u" ∉ emptyState.viewed →
        (on_entry_click "u" emptyState).viewed = setInsert (some "u") emptyState.viewed
        ∧ (on_entry_click "u" emptyState).writes = emptyState.writes + 1)
    ∧ (some "u" ∈ emptyState.viewed → on_entry_click "u" emptyState = emptyState) :=
  C6_amended "u" emptyState

/-! ## C7: persistence writes are not atomic -/

/-- C7 counterexample: the persistence write for a concrete one-element
viewed set does not follow the write-to-temporary-then-replace pattern:
it opens and truncates the durable file itself. -/
theorem C7_counterexample :
    ¬ specAtomicWritePattern viewed_entries_file (save_viewed_entries [some "t"]) := by
  rintro ⟨tmp, data, hne, heq⟩
  have hlen := congrArg List.length heq
  simp [save_viewed_entries] at hlen

/-- C7 amended: every persistence write of the viewed set opens the
durable file itself in write mode (truncating it) and writes the data
directly; no write follows the atomic temporary-then-replace pattern,
so a crash between the truncation and the completed write can leave the
persisted list corrupt. -/
theorem C7_amended (v : ViewedSet) :
    save_viewed_entries v
      = [FSOp.openWrite viewed_entries_file, FSOp.writeData v, FSOp.closeFile]
    ∧ ¬ specAtomicWritePattern viewed_entries_file (save_viewed_entries v) := by
  refine ⟨rfl, ?_⟩
  rintro ⟨tmp, data, hne, heq⟩
  have hlen := congrArg List.length heq
  simp [save_viewed_entries] at hlen

/-! ## C8: the worker-pool cap -/

/-- C8 counterexample: on a one-cpu machine the executor the source
builds admits 5 concurrent workers, not the 4 the claim names as the
source's default cap. -/
theorem C8_counterexample :
    FeedFetcher.poolCap 1 = 5 ∧ FeedFetcher.poolCap 1 ≠ 4 := by decide

/-- C8 amended: the fetch fan-out is bounded: the executor's cap never
exceeds 32 whatever the cpu count, and on any machine with at least one
cpu it is at least 5, so the cap is bounded but never the 4 the claim
names. -/
theorem C8_amended (n : Nat) (h : 1 ≤ n) :
    FeedFetcher.poolCap n ≤ 32
    ∧ 5 ≤ FeedFetcher.poolCap n
    ∧ FeedFetcher.poolCap n ≠ 4 := by
  refine ⟨min_le_left _ _, le_min (by omega) (by omega), ?_⟩
  have h5 : 5 ≤ FeedFetcher.poolCap n := le_min (by omega) (by omega)
  omega

/-- C8 witness: the amended bounded-pool property at one cpu. -/
theorem C8_amended_witness :
    FeedFetcher.poolCap 1 ≤ 32
    ∧ 5 ≤ FeedFetcher.poolCap 1
    ∧ FeedFetcher.poolCap 1 ≠ 4 :=
  C8_amended 1 (by decide)

/-! ## C9: save/load round trip -/

/-- C9: saving the viewed set writes exactly its element list as the
payload, and loading that payload back recovers a set with exactly the
same members: save followed by load is the identity on the set of
viewed titles. -/
theorem C9_save_load_roundtrip (v : ViewedSet) :
    savedPayload (save_viewed_entries v) = some v
    ∧ (∀ x, x ∈ load_viewed_entries v ↔ x ∈ v) := by
  refine ⟨rfl, fun x => ?_⟩
  simp [load_viewed_entries, List.mem_dedup]

/-! ## Lemmas about the anchor search -/

theorem beginsWith_append_of_le (pat u v : List Char) (h : pat.length ≤ u.length) :
    beginsWith pat (u ++ v) = beginsWith pat u := by
  induction pat generalizing u with
  | nil => simp [beginsWith]
  | cons p ps ih =>
    cases u with
    | nil => simp at h
    | cons c cs =>
      simp only [List.cons_append, beginsWith, List.append_eq]
      rw [ih cs (by simpa using h)]

theorem hasInfix_cons_false (pat : List Char) (c : Char) (cs : List Char)
    (h : hasInfix pat (c :: cs) = false) :
    beginsWith pat (c :: cs) = false ∧ hasInfix pat cs = false := by
  rw [hasInfix] at h
  exact Bool.or_eq_false_iff.mp h

theorem hasInfix_append_left (pat u l : List Char) (h : hasInfix pat l = true) :
    hasInfix pat (u ++ l) = true := by
  induction u with
  | nil => exact h
  | cons c cs ih => simp [hasInfix, ih]

theorem afterOpen_append (attrs rest : List Char) (h : '>' ∉ attrs) :
    afterOpen (attrs ++ ('>' :: rest)) = some rest := by
  induction attrs with
  | nil => simp [afterOpen]
  | cons c cs ih =>
    have hc : ¬ c = '>' := by
      intro e
      exact h (by rw [e]; exact List.mem_cons_self _ _)
    have htail : '>' ∉ cs := fun hm => h (List.mem_cons_of_mem c hm)
    simp only [List.cons_append, afterOpen, if_neg hc]
    exact ih htail

theorem afterOpen_suffix (l r : List Char) (h : afterOpen l = some r) :
    ∃ u, l = u ++ r := by
  induction l generalizing r with
  | nil => cases h
  | cons c cs ih =>
    rw [afterOpen] at h
    by_cases hc : c = '>'
    · rw [if_pos hc] at h
      injection h with h2
      subst h2
      exact ⟨[c], rfl⟩
    · rw [if_neg hc] at h
      obtain ⟨u, hu⟩ := ih r h
      exact ⟨c :: u, by rw [List.cons_append, ← hu]⟩

theorem captureInner_append (inner post : List Char)
    (hnl : '\n' ∉ inner) (hcl : hasInfix closeTag inner = false) :
    captureInner (inner ++ (closeTag ++ post)) = some (inner, post) := by
  induction inner with
  | nil => simp [captureInner, beginsWith, closeTag, List.drop]
  | cons c cs ih =>
    have h0 := hasInfix_cons_false _ _ _ hcl
    have hb : beginsWith closeTag (c :: (cs ++ (closeTag ++ post))) = false := by
      rcases cs with _ | ⟨c2, _ | ⟨c3, _ | ⟨c4, cs4⟩⟩⟩
      · simp [beginsWith, closeTag]
      · simp [beginsWith, closeTag]
      · simp [beginsWith, closeTag]
      · rw [← List.cons_append, beginsWith_append_of_le _ _ _ (by simp [closeTag])]
        exact h0.1
    have hcne : ¬ c = '\n' := by
      intro e
      exact hnl (by rw [e]; exact List.mem_cons_self _ _)
    have hnl2 : '\n' ∉ cs := fun hm => hnl (List.mem_cons_of_mem c hm)
    simp only [List.cons_append, List.append_eq, captureInner, hb, Bool.false_eq_true,
      if_false, if_neg hcne, ih hnl2 h0.2]

theorem captureInner_some_infix (l : List Char) (p : List Char × List Char)
    (h : captureInner l = some p) : hasInfix closeTag l = true := by
  induction l generalizing p with
  | nil => cases h
  | cons c cs ih =>
    by_cases hb : beginsWith closeTag (c :: cs) = true
    · simp [hasInfix, hb]
    · simp only [captureInner, if_neg hb] at h
      by_cases hn : c = '\n'
      · rw [if_pos hn] at h
        cases h
      · rw [if_neg hn] at h
        rcases he : captureInner cs with _ | q
        · rw [he] at h
          cases h
        · have hq := ih q he
          simp [hasInfix, hq]

theorem searchAnchor_skip (pre r : List Char) (h : hasInfix openTag pre = false) :
    searchAnchor (pre ++ ('<' :: r)) = searchAnchor ('<' :: r) := by
  induction pre with
  | nil => rfl
  | cons c cs ih =>
    have h0 := hasInfix_cons_false _ _ _ h
    have hb : beginsWith openTag (c :: (cs ++ ('<' :: r))) = false := by
      rcases cs with _ | ⟨c2, cs2⟩
      · simp [beginsWith, openTag]
      · rw [← List.cons_append, beginsWith_append_of_le _ _ _ (by simp [openTag])]
        exact h0.1
    have step : searchAnchor (c :: (cs ++ ('<' :: r))) = searchAnchor (cs ++ ('<' :: r)) := by
      simp only [searchAnchor, List.append_eq, hb, Bool.false_eq_true, if_false]
    rw [List.cons_append, step]
    exact ih h0.2

theorem searchAnchor_anchor (pre attrs inner post : List Char)
    (hpre : hasInfix openTag pre = false)
    (hattrs : '>' ∉ attrs)
    (hnl : '\n' ∉ inner)
    (hinner : hasInfix closeTag inner = false) :
    searchAnchor (pre ++ ('<' :: 'a' :: (attrs ++ ('>' :: (inner ++ (closeTag ++ post))))))
      = some (String.mk inner) := by
  rw [searchAnchor_skip pre _ hpre]
  have hb : beginsWith openTag
      ('<' :: 'a' :: (attrs ++ ('>' :: (inner ++ (closeTag ++ post))))) = true := by
    simp [beginsWith, openTag]
  have ha : afterOpen (('a' :: (attrs ++ ('>' :: (inner ++ (closeTag ++ post))))).drop 1)
      = some (inner ++ (closeTag ++ post)) := by
    rw [List.drop_succ_cons, List.drop_zero]
    exact afterOpen_append _ _ hattrs
  have hc : captureInner (inner ++ (closeTag ++ post)) = some (inner, post) :=
    captureInner_append inner post hnl hinner
  simp only [searchAnchor, hb, if_true, ha, hc]

theorem searchAnchor_no_open (l : List Char) (h : hasInfix openTag l = false) :
    searchAnchor l = none := by
  induction l with
  | nil => rfl
  | cons c cs ih =>
    have h0 := hasInfix_cons_false _ _ _ h
    simp only [searchAnchor, h0.1, Bool.false_eq_true, if_false]
    exact ih h0.2

theorem searchAnchor_no_close (l : List Char) (h : hasInfix closeTag l = false) :
    searchAnchor l = none := by
  induction l with
  | nil => rfl
  | cons c cs ih =>
    have h0 := hasInfix_cons_false _ _ _ h
    by_cases hb : beginsWith openTag (c :: cs) = true
    · rcases ha : afterOpen (cs.drop 1) with _ | rest
      · simp only [searchAnchor, hb, if_true, ha]
        exact ih h0.2
      · rcases hc : captureInner rest with _ | p
        · simp only [searchAnchor, hb, if_true, ha, hc]
          exact ih h0.2
        · exfalso
          obtain ⟨u, hu⟩ := afterOpen_suffix _ _ ha
          have h1 : hasInfix closeTag rest = true := captureInner_some_infix _ _ hc
          have h2 : hasInfix closeTag (cs.drop 1) = true := by
            rw [hu]
            exact hasInfix_append_left _ _ _ h1
          have h3 : hasInfix closeTag cs = true := by
            rw [← List.take_append_drop 1 cs]
            exact hasInfix_append_left _ _ _ h2
          rw [h0.2] at h3
          cases h3
    · have hb2 : beginsWith openTag (c :: cs) = false := by simpa using hb
      simp only [searchAnchor, hb2, Bool.false_eq_true, if_false]
      exact ih h0.2

/-! ## C10: extract_title and what mark-all records -/

/-- C10: extract_title returns the inner text of the first anchor
element, matched non-greedily up to the first reachable closing anchor
tag (stated compositionally: for a text decomposing as a pattern-free
part, the anchor opening, an attribute run without a closing angle
bracket, the inner text without newline or closing tag, the closing tag
and a tail, it returns exactly that inner text), and returns none when
the text holds no anchor opening or no closing tag at all; consequently
mark-all-viewed records exactly the values extracted from the rendered
labels, not the entries' original titles, and records Python's None for
an entry whose label yields no match. -/
theorem C10_extract_title_mark_all :
    (∀ pre attrs inner post : List Char,
      hasInfix openTag pre = false → '>' ∉ attrs → '\n' ∉ inner →
      hasInfix closeTag inner = false →
      extract_title (String.mk
          (pre ++ ('<' :: 'a' :: (attrs ++ ('>' :: (inner ++ (closeTag ++ post)))))))
        = some (String.mk inner))
    ∧ (∀ s : String, hasInfix openTag s.data = false → extract_title s = none)
    ∧ (∀ s : String, hasInfix closeTag s.data = false → extract_title s = none)
    ∧ (∀ (entries : List (String × Entry)) (st : ReaderState) (v : Option String),
        v ∈ (mark_all_as_read entries st).viewed ↔
          v ∈ st.viewed ∨ v ∈ entries.map (fun q => extract_title (entryLabel q.1 q.2)))
    ∧ (∀ (entries : List (String × Entry)) (st : ReaderState) (p : String × Entry),
        p ∈ entries → extract_title (entryLabel p.1 p.2) = none →
          none ∈ (mark_all_as_read entries st).viewed) := by
  refine ⟨?_, ?_, ?_, mem_mark_all_viewed, ?_⟩
  · intro pre attrs inner post h1 h2 h3 h4
    exact searchAnchor_anchor pre attrs inner post h1 h2 h3 h4
  · intro s hs
    exact searchAnchor_no_open s.data hs
  · intro s hs
    exact searchAnchor_no_close s.data hs
  · intro entries st p hp hnone
    refine (mem_mark_all_viewed entries st none).mpr (Or.inr ?_)
    rw [List.mem_map]
    exact ⟨p, hp, hnone⟩

/-- C10 witness: the extraction characterization applied at concrete
texts: a label-shaped text with an anchor yields the inner text, and a
text with no anchor yields none. -/
theorem C10_extract_title_mark_all_witness :
    extract_title "z<a =q>T</a>w" = some "T"
    ∧ extract_title "plain text" = none := by
  constructor
  · exact C10_extract_title_mark_all.1 ['z'] [' ', '=', 'q'] ['T'] ['w']
      (by decide) (by decide) (by decide) (by decide)
  · exact C10_extract_title_mark_all.2.1 "plain text" (by decide)
